import Mathlib

/-!
Verification of the Reversi UDP server (`src/server/reversi_server.py`)
against its natural-language specification.

The board-engine functions, the move policies and the request handlers are
shallowly embedded as executable Lean definitions, translated function by
function from the Python source.  Python 8×8 boards (lists of lists of the
ints 0, 1 and 255) become `List (List Int)`; in-place mutation becomes
explicit state passing; the bounded `while` walks along a board direction
become fuel recursion with fuel 8 (a walk starting next to an in-bounds
cell leaves the 8×8 board in at most 8 steps, which is proved where it
matters, so the fuel is never exhausted on the source's call sites).
-/

namespace Reversi

/-- A board is a list of 8 rows of 8 cells; a cell is `0` (player 0 piece),
`1` (player 1 piece) or `255` (empty), as in the Python source. -/
abbrev Board := List (List Int)

/-- Well-formedness of a board: 8 rows of length 8 (always true of boards the
server constructs; the Python source indexes them without further checks). -/
def BoardWF (b : Board) : Prop := b.length = 8 ∧ ∀ r ∈ b, r.length = 8

/-- Reading `board[y][x]`.  The Python source only ever indexes in bounds
(guarded by `is_in_bounds`); out of range the embedding returns a default. -/
def getCell (b : Board) (x y : Int) : Int :=
  (b.getD y.toNat []).getD x.toNat 255

/-- Writing `board[y][x] = v`. -/
def setCell (b : Board) (x y : Int) (v : Int) : Board :=
  b.set y.toNat ((b.getD y.toNat []).set x.toNat v)

/-- `is_in_bounds(x, y)`: `0 <= x < 8 and 0 <= y < 8`. -/
def is_in_bounds (x y : Int) : Prop := 0 ≤ x ∧ x < 8 ∧ 0 ≤ y ∧ y < 8

instance (x y : Int) : Decidable (is_in_bounds x y) := by
  unfold is_in_bounds; infer_instance

/-- The 8 scan directions, in source order. -/
def DIRECTIONS : List (Int × Int) :=
  [(-1, -1), (-1, 0), (-1, 1), (0, -1), (0, 1), (1, -1), (1, 0), (1, 1)]

/-- `create_initial_board()`: all cells 255, then
`board[3][3] = board[4][4] = 0` and `board[3][4] = board[4][3] = 1`
(`board[y][x]` indexing, so e.g. `board[3][4]` is the cell x=4, y=3). -/
def create_initial_board : Board :=
  setCell (setCell (setCell (setCell
    (List.replicate 8 (List.replicate 8 (255 : Int))) 3 3 0) 4 4 0) 4 3 1) 3 4 1

/-- The `while is_in_bounds(cx, cy) and board[cy][cx] == opponent` loop of
`find_legal_moves`, which records in `saw_opponent` whether at least one
step was taken and leaves the cursor on the first cell failing the
condition.  Returns (saw_opponent, final cx, final cy). -/
def scanSaw (b : Board) (opp : Int) (dx dy : Int) :
    Nat → Int → Int → Bool × Int × Int
  | 0, cx, cy => (false, cx, cy)
  | n + 1, cx, cy =>
    if is_in_bounds cx cy ∧ getCell b cx cy = opp then
      let r := scanSaw b opp dx dy n (cx + dx) (cy + dy)
      (true, r.2)
    else (false, cx, cy)

/-- The same loop as it appears in `apply_player_move`, which instead
collects the visited cells in `path`.  Returns (path, final cx, final cy). -/
def scanPath (b : Board) (opp : Int) (dx dy : Int) :
    Nat → Int → Int → List (Int × Int) × Int × Int
  | 0, cx, cy => ([], cx, cy)
  | n + 1, cx, cy =>
    if is_in_bounds cx cy ∧ getCell b cx cy = opp then
      let r := scanPath b opp dx dy n (cx + dx) (cy + dy)
      ((cx, cy) :: r.1, r.2)
    else ([], cx, cy)

/-- One direction's test in `find_legal_moves`: the inner loop followed by
`saw_opponent and is_in_bounds(cx, cy) and board[cy][cx] == player`. -/
def legalDir (b : Board) (player : Int) (x y : Int) (d : Int × Int) : Bool :=
  let opponent := 1 - player
  let r := scanSaw b opponent d.1 d.2 8 (x + d.1) (y + d.2)
  r.1 && decide (is_in_bounds r.2.1 r.2.2) && decide (getCell b r.2.1 r.2.2 = player)

/-- Whether `find_legal_moves` adds the (in-bounds) cell `(x, y)`: the cell
is empty and some direction passes (`break` on the first success is `any`). -/
def isLegalCell (b : Board) (player : Int) (x y : Int) : Bool :=
  decide (getCell b x y = 255) && DIRECTIONS.any (legalDir b player x y)

/-- The cell enumeration of `find_legal_moves`: `y` outer, `x` inner, each
over `range(8)`, collecting `(x, y)` pairs. -/
def allCells : List (Int × Int) :=
  (List.range 8).flatMap fun (y : Nat) =>
    (List.range 8).map fun (x : Nat) => ((x : Int), (y : Int))

/-- Python's tuple order on `(x, y)` pairs (non-strict): first coordinate,
then second; `sorted` on a set of pairs lists them in this order. -/
def lexLe (a b : Int × Int) : Prop := a.1 < b.1 ∨ (a.1 = b.1 ∧ a.2 ≤ b.2)

instance : DecidableRel lexLe := by
  unfold lexLe; infer_instance

instance : IsTotal (Int × Int) lexLe := by
  constructor; intro a b; unfold lexLe; omega

instance : IsTrans (Int × Int) lexLe := by
  constructor; intro a b c; unfold lexLe; omega

/-- `find_legal_moves(board, player)`: the found cells, as a set, listed in
Python's `sorted` order.  The enumeration visits each cell once, so the set
has exactly the cells passing `isLegalCell`, and `sorted` lists them in
non-decreasing tuple (`lexLe`) order. -/
def find_legal_moves (b : Board) (player : Int) : List (Int × Int) :=
  List.insertionSort lexLe (allCells.filter fun c => isLegalCell b player c.1 c.2)

/-- The flip list built by `apply_player_move`: for each direction, walk the
opponent run; if the path is non-empty and ends on an in-bounds cell of the
mover, append the path to `flips`. -/
def moveFlips (b : Board) (player : Int) (x y : Int) : List (Int × Int) :=
  let opponent := 1 - player
  DIRECTIONS.flatMap fun d =>
    let r := scanPath b opponent d.1 d.2 8 (x + d.1) (y + d.2)
    if r.1 ≠ [] ∧ is_in_bounds r.2.1 r.2.2 ∧ getCell b r.2.1 r.2.2 = player then
      r.1
    else []

/-- `apply_player_move(board, player, x, y)`.  The Python function mutates
`board` and returns `(applied, pieces_changed)`; the embedding returns
`(applied, pieces_changed, board after the call)`. -/
def apply_player_move (b : Board) (player : Int) (x y : Int) :
    Bool × Nat × Board :=
  if ¬is_in_bounds x y ∨ getCell b x y ≠ 255 then (false, 0, b)
  else
    let flips := moveFlips b player x y
    if flips = [] then (false, 0, b)
    else
      (true, 1 + flips.length,
        flips.foldl (fun bb c => setCell bb c.1 c.2 player) (setCell b x y player))

/-- `count_pieces(board)`: tallies cells equal to 0 into `b` and cells equal
to 1 into `w`, row by row. -/
def count_pieces (b : Board) : Nat × Nat :=
  b.foldl
    (fun acc row => row.foldl
      (fun a c => if c = 0 then (a.1 + 1, a.2) else if c = 1 then (a.1, a.2 + 1) else a)
      acc)
    (0, 0)

/-- `check_game_over(board, current_turn)`: game over iff neither the
current player nor the opponent has a legal move. -/
def check_game_over (b : Board) (current_turn : Int) : Bool :=
  if find_legal_moves b current_turn ≠ [] then false
  else if find_legal_moves b (1 - current_turn) ≠ [] then false
  else true

/-! Specification-side vocabulary, written from the spec's words, used to
state the claims about `apply_player_move` declaratively and to compare the
source's move enumeration order with the order the spec asserts. -/

/-- The `j`-th cell along direction `d` from `(x, y)` (the placed cell is
`j = 0`). -/
def runPos (x y : Int) (d : Int × Int) (j : Nat) : Int × Int :=
  (x + j * d.1, y + j * d.2)

/-- Spec-side description of a validly bounded run for the mover `p` from
`(x, y)` in direction `d`: a non-empty run of opponent pieces on cells
`1..L`, immediately followed (at cell `L + 1`, still on the board) by a
piece of `p`. -/
def BoundedRun (b : Board) (p x y : Int) (d : Int × Int) (L : Nat) : Prop :=
  1 ≤ L ∧
  (∀ j, 1 ≤ j → j ≤ L →
    is_in_bounds (runPos x y d j).1 (runPos x y d j).2 ∧
    getCell b (runPos x y d j).1 (runPos x y d j).2 = 1 - p) ∧
  is_in_bounds (runPos x y d (L + 1)).1 (runPos x y d (L + 1)).2 ∧
  getCell b (runPos x y d (L + 1)).1 (runPos x y d (L + 1)).2 = p

/-- Spec-side description of the flipped cells: a cell lies on some validly
bounded run from `(x, y)`. -/
def OnFlipRun (b : Board) (p x y : Int) (c : Int × Int) : Prop :=
  ∃ d ∈ DIRECTIONS, ∃ L, BoundedRun b p x y d L ∧
    ∃ j, 1 ≤ j ∧ j ≤ L ∧ c = runPos x y d j

/-- Row-major order on `(x, y)` cells, written from the spec's words: row
(`y`) first, column (`x`) second.  This is the order the spec claims
`find_legal_moves` returns. -/
def rowMajorLe (a b : Int × Int) : Prop := a.2 < b.2 ∨ (a.2 = b.2 ∧ a.1 ≤ b.1)

instance : DecidableRel rowMajorLe := by
  unfold rowMajorLe; infer_instance

/-- The per-direction scan as `apply_player_move` invokes it: walk from the
neighbour of `(x, y)` in direction `d` over opponent (`1 - player`) cells. -/
def dirScan (b : Board) (p x y : Int) (d : Int × Int) :
    List (Int × Int) × Int × Int :=
  scanPath b (1 - p) d.1 d.2 8 (x + d.1) (y + d.2)

/-- The source's per-direction flip condition: non-empty path ending on an
in-bounds cell of the mover. -/
def dirFlipCond (b : Board) (p x y : Int) (d : Int × Int) : Prop :=
  (dirScan b p x y d).1 ≠ [] ∧
  is_in_bounds (dirScan b p x y d).2.1 (dirScan b p x y d).2.2 ∧
  getCell b (dirScan b p x y d).2.1 (dirScan b p x y d).2.2 = p

instance (b : Board) (p x y : Int) (d : Int × Int) :
    Decidable (dirFlipCond b p x y d) := by
  unfold dirFlipCond; infer_instance

/-- Number of cells of `b` holding the value `v` (used to relate the
source's `count_pieces` accumulator to per-cell board changes). -/
def countVal (b : Board) (v : Int) : Nat := (b.map (fun r => r.count v)).sum

/-- The score `cpu_select_move` assigns to a candidate move: the
`pieces_changed` reported by simulating the move (the source simulates on a
scratch clone; the embedding is pure, so it evaluates on `b` directly) plus
100 for a corner, else 10 for an edge cell, else 0. -/
def cpu_move_score (b : Board) (p : Int) (m : Int × Int) : Int :=
  ((apply_player_move b p m.1 m.2).2.1 : Int) +
    (if m = ((0 : Int), (0 : Int)) ∨ m = (0, 7) ∨ m = (7, 0) ∨ m = (7, 7) then 100
     else if m.1 = 0 ∨ m.1 = 7 ∨ m.2 = 0 ∨ m.2 = 7 then 10 else 0)

/-- `cpu_select_move(board, cpu_player)`: none when there is no legal move;
otherwise a fold over the legal moves keeping `best_score` (initially `-1`)
and `best_move` (initially `moves[0]`), updating on strictly greater score
and skipping candidates whose simulated apply fails. -/
def cpu_select_move (b : Board) (p : Int) : Option (Int × Int) :=
  match find_legal_moves b p with
  | [] => none
  | m0 :: _ =>
    some ((find_legal_moves b p).foldl
      (fun acc m =>
        if !(apply_player_move b p m.1 m.2).1 then acc
        else if cpu_move_score b p m > acc.1 then (cpu_move_score b p m, m)
        else acc)
      (-1, m0)).2

/-! The server layer: the slices of `ReversiUDPServer` state and handlers
that the claims are about.  A lobby slot holds either a human's player id or
one of the bot markers (the Python list holds ints or the strings
"CPU"/"AI"); network addresses are abstracted to numeric ids, with `none`
for a bot slot.  The payload bytes of outbound packets are not modelled:
`send_state` returns the list of addresses a GAME_STATE datagram goes to. -/

/-- `GameStatus` constants. -/
def GameStatus.WAITING : Nat := 0

def GameStatus.PLAYING : Nat := 1

def GameStatus.FINISHED : Nat := 2

/-- The `ErrorCode` constants the claims mention. -/
def ErrorCode.NOT_IN_LOBBY : Nat := 5

def ErrorCode.GAME_NOT_ACTIVE : Nat := 6

def ErrorCode.NOT_YOUR_TURN : Nat := 7

def ErrorCode.ILLEGAL_MOVE : Nat := 8

def ErrorCode.APPLY_FAILED : Nat := 9

def ErrorCode.SPECTATOR_MOVE_NOT_ALLOWED : Nat := 11

/-- One participant slot of `Lobby.players`: a human player id (int) or a
bot marker string ("CPU" / "AI"). -/
inductive Slot where
  | human (pid : Nat)
  | cpu
  | ai
deriving DecidableEq

/-- The mutable lobby state (`Lobby.__slots__` minus the chat history and
the transient CPU deadline, which no claim touches). -/
structure Lobby where
  lobby_id : Nat
  mode : Nat
  started : Bool
  players : List Slot
  player_addresses : List (Option Nat)
  board : Board
  turn_index : Nat
  status : Nat
  winner : Option Int
  pass_streak : Nat
  last_hash : Option (Nat × Nat × Board)
deriving DecidableEq

/-- `Lobby.state_hash`: the `(status, turn_index, board)` triple. -/
def Lobby.state_hash (lb : Lobby) : Nat × Nat × Board :=
  (lb.status, lb.turn_index, lb.board)

/-- The slice of a `Player` record `_handle_leave` touches. -/
structure PlayerR where
  player_id : Nat
  lobby_id : Option Nat
deriving DecidableEq

/-- `_handle_place(data, player)` after the lobby lookup
(`self.lobbies.get(player.lobby_id)`, whose result is the `Option Lobby`
argument): returns the error code sent (or `none` on success) and the lobby
as left by the handler (the turn switch, skip and game-over transition
included; the state broadcast is modelled separately by `send_state`). -/
def handle_place (lb? : Option Lobby) (pid : Nat) (x y : Int) :
    Option Nat × Option Lobby :=
  match lb? with
  | none => (some ErrorCode.NOT_IN_LOBBY, none)
  | some lb =>
    if lb.status ≠ GameStatus.PLAYING then (some ErrorCode.GAME_NOT_ACTIVE, some lb)
    else
      match lb.players.findIdx? (fun s => s == Slot.human pid) with
      | none => (some ErrorCode.SPECTATOR_MOVE_NOT_ALLOWED, some lb)
      | some idx =>
        if lb.turn_index ≠ idx then (some ErrorCode.NOT_YOUR_TURN, some lb)
        else if (x, y) ∉ find_legal_moves lb.board (idx : Int) then
          (some ErrorCode.ILLEGAL_MOVE, some lb)
        else
          let r := apply_player_move lb.board (idx : Int) x y
          if !r.1 then (some ErrorCode.APPLY_FAILED, some { lb with board := r.2.2 })
          else
            let lb1 := { lb with board := r.2.2, turn_index := 1 - lb.turn_index }
            let lb2 :=
              if find_legal_moves lb1.board (lb1.turn_index : Int) = [] then
                if check_game_over lb1.board (lb1.turn_index : Int) then
                  let pc := count_pieces lb1.board
                  { lb1 with status := GameStatus.FINISHED,
                             winner := some (if pc.1 > pc.2 then 0
                               else if pc.2 > pc.1 then 1 else -1) }
                else { lb1 with turn_index := 1 - lb1.turn_index }
              else lb1
            (none, some lb2)

/-- `_handle_leave(player)` on the live-lobby table (an association list
keyed by lobby id): pops the player's slot and address if seated, clears the
player's lobby reference, and deletes the lobby when its players list is
empty. -/
def handle_leave (p : PlayerR) (lobbies : List (Nat × Lobby)) :
    PlayerR × List (Nat × Lobby) :=
  match p.lobby_id with
  | none => (p, lobbies)
  | some lid =>
    match List.lookup lid lobbies with
    | none => ({ p with lobby_id := none }, lobbies)
    | some lb =>
      let lb' :=
        match lb.players.findIdx? (fun s => s == Slot.human p.player_id) with
        | some idx =>
          { lb with players := lb.players.eraseIdx idx,
                    player_addresses := lb.player_addresses.eraseIdx idx }
        | none => lb
      let p' := { p with lobby_id := none }
      if lb'.players = [] then
        (p', lobbies.filter (fun e => e.1 != lid))
      else
        (p', lobbies.map (fun e => if e.1 = lid then (e.1, lb') else e))

/-- `_send_state(lb)`: skipped when the state hash equals the cached one;
otherwise caches the hash and sends the GAME_STATE datagram to every slot
with an address (the humans).  Returns the recipient list and the updated
lobby. -/
def send_state (lb : Lobby) : List Nat × Lobby :=
  if lb.last_hash = some lb.state_hash then ([], lb)
  else
    (lb.player_addresses.filterMap id, { lb with last_hash := some lb.state_hash })

/-- `generate_lobby_id(existing_lobbies)`: the source loops
`x = random.randrange(1, 65535)` until `x not in existing_lobbies`.  The
random number generator is modelled as a stream `draws` of successive
values; the loop returns the first draw outside `existing`, and it
terminates exactly when such a draw exists. -/
def generate_lobby_id (draws : Nat → Nat) (existing : List Nat)
    (h : ∃ i, draws i ∉ existing) : Nat :=
  draws (Nat.find h)

/-- A concrete started human-vs-CPU lobby (human id 7 at address 3 in slot
0, bot in slot 1) used to instantiate the handler theorems on concrete
inputs. -/
def sampleLobby : Lobby :=
  { lobby_id := 1, mode := 1, started := true,
    players := [Slot.human 7, Slot.cpu],
    player_addresses := [some 3, none],
    board := create_initial_board, turn_index := 0,
    status := GameStatus.PLAYING, winner := none, pass_streak := 0,
    last_hash := none }

/-! Lemmas about the direction-scan loops. -/

theorem scanPath_succ (b : Board) (opp dx dy : Int) (n : Nat) (cx cy : Int) :
    scanPath b opp dx dy (n + 1) cx cy =
      if is_in_bounds cx cy ∧ getCell b cx cy = opp then
        ((cx, cy) :: (scanPath b opp dx dy n (cx + dx) (cy + dy)).1,
          (scanPath b opp dx dy n (cx + dx) (cy + dy)).2)
      else ([], cx, cy) := rfl

theorem scanSaw_eq_scanPath (b : Board) (opp dx dy : Int) :
    ∀ n cx cy, scanSaw b opp dx dy n cx cy =
      (!(scanPath b opp dx dy n cx cy).1.isEmpty, (scanPath b opp dx dy n cx cy).2) := by
  intro n
  induction n with
  | zero => intro cx cy; simp [scanSaw, scanPath]
  | succ n ih =>
    intro cx cy
    rw [scanPath_succ]
    simp only [scanSaw]
    split
    · simp [ih]
    · rfl

theorem scanPath_length_le (b : Board) (opp dx dy : Int) :
    ∀ n cx cy, (scanPath b opp dx dy n cx cy).1.length ≤ n := by
  intro n
  induction n with
  | zero => intro cx cy; simp [scanPath]
  | succ n ih =>
    intro cx cy
    simp only [scanPath]
    split
    · simpa using ih (cx + dx) (cy + dy)
    · exact Nat.zero_le _

theorem scanPath_eq_map (b : Board) (opp dx dy : Int) :
    ∀ n cx cy, (scanPath b opp dx dy n cx cy).1 =
      (List.range (scanPath b opp dx dy n cx cy).1.length).map
        (fun (j : Nat) => (cx + (j : Int) * dx, cy + (j : Int) * dy)) := by
  intro n
  induction n with
  | zero => intro cx cy; simp [scanPath]
  | succ n ih =>
    intro cx cy
    by_cases hcond : is_in_bounds cx cy ∧ getCell b cx cy = opp
    · rw [scanPath_succ, if_pos hcond]
      have h := ih (cx + dx) (cy + dy)
      simp only [List.length_cons]
      rw [List.range_succ_eq_map]
      simp only [List.map_cons, List.map_map, List.cons.injEq]
      constructor
      · simp
      · rw [h]
        simp only [List.length_map, List.length_range]
        apply List.map_congr_left
        intro j hj
        simp only [Function.comp_apply]
        push_cast
        rw [Prod.mk.injEq]
        constructor <;> ring
    · rw [scanPath_succ, if_neg hcond]
      simp

theorem scanPath_cells (b : Board) (opp dx dy : Int) :
    ∀ n cx cy, ∀ c ∈ (scanPath b opp dx dy n cx cy).1,
      is_in_bounds c.1 c.2 ∧ getCell b c.1 c.2 = opp := by
  intro n
  induction n with
  | zero => intro cx cy c hc; simp [scanPath] at hc
  | succ n ih =>
    intro cx cy c hc
    by_cases hcond : is_in_bounds cx cy ∧ getCell b cx cy = opp
    · rw [scanPath_succ, if_pos hcond] at hc
      simp only [List.mem_cons] at hc
      rcases hc with rfl | hc
      · exact hcond
      · exact ih (cx + dx) (cy + dy) c hc
    · rw [scanPath_succ, if_neg hcond] at hc
      simp at hc

theorem scanPath_final (b : Board) (opp dx dy : Int) :
    ∀ n cx cy,
      (scanPath b opp dx dy n cx cy).2.1 =
        cx + ((scanPath b opp dx dy n cx cy).1.length : Int) * dx ∧
      (scanPath b opp dx dy n cx cy).2.2 =
        cy + ((scanPath b opp dx dy n cx cy).1.length : Int) * dy := by
  intro n
  induction n with
  | zero => intro cx cy; simp [scanPath]
  | succ n ih =>
    intro cx cy
    by_cases hcond : is_in_bounds cx cy ∧ getCell b cx cy = opp
    · rw [scanPath_succ, if_pos hcond]
      have h := ih (cx + dx) (cy + dy)
      simp only [List.length_cons]
      constructor
      · rw [h.1]; push_cast; ring
      · rw [h.2]; push_cast; ring
    · rw [scanPath_succ, if_neg hcond]
      simp

theorem scanPath_stop (b : Board) (opp dx dy : Int) :
    ∀ n cx cy, (scanPath b opp dx dy n cx cy).1.length < n →
      ¬(is_in_bounds (scanPath b opp dx dy n cx cy).2.1
          (scanPath b opp dx dy n cx cy).2.2 ∧
        getCell b (scanPath b opp dx dy n cx cy).2.1
          (scanPath b opp dx dy n cx cy).2.2 = opp) := by
  intro n
  induction n with
  | zero => intro cx cy h; omega
  | succ n ih =>
    intro cx cy h
    by_cases hcond : is_in_bounds cx cy ∧ getCell b cx cy = opp
    · rw [scanPath_succ, if_pos hcond] at h ⊢
      simp only [List.length_cons] at h
      exact ih (cx + dx) (cy + dy) (by omega)
    · rw [scanPath_succ, if_neg hcond]
      exact hcond

theorem moveFlips_eq_flatMap (b : Board) (p x y : Int) :
    moveFlips b p x y = DIRECTIONS.flatMap (fun d =>
      if dirFlipCond b p x y d then (dirScan b p x y d).1 else []) := rfl

/-- Two run cells (at positive offsets) coincide only for the same direction
and the same offset. -/
theorem runPos_dir_inj (x y : Int) (d d' : Int × Int)
    (hd : d ∈ DIRECTIONS) (hd' : d' ∈ DIRECTIONS) :
    ∀ j j' : Nat, 1 ≤ j → 1 ≤ j' →
      runPos x y d j = runPos x y d' j' → d = d' ∧ j = j' := by
  fin_cases hd <;> fin_cases hd' <;> intro j j' hj hj' h <;>
    simp only [runPos, Prod.mk.injEq, true_and, and_true] at h ⊢ <;> omega

/-- A run cell at a positive offset is never the placed cell itself. -/
theorem runPos_ne_base (x y : Int) (d : Int × Int) (hd : d ∈ DIRECTIONS) :
    ∀ j : Nat, 1 ≤ j → runPos x y d j ≠ (x, y) := by
  fin_cases hd <;> intro j hj h <;>
    simp only [runPos, Prod.mk.injEq] at h <;> omega

/-- With fuel 8, a scan that starts next to an in-bounds cell never walks 8
steps: every direction moves by ±1 in some coordinate each step, so the walk
leaves the 8×8 board first.  Hence the fuel never truncates the loop. -/
theorem dirScan_length_le_seven (b : Board) (p x y : Int) (d : Int × Int)
    (hxy : is_in_bounds x y) (hd : d ∈ DIRECTIONS) :
    (dirScan b p x y d).1.length ≤ 7 := by
  by_contra hcon
  have hle : (dirScan b p x y d).1.length ≤ 8 :=
    scanPath_length_le b (1 - p) d.1 d.2 8 _ _
  have hL : (dirScan b p x y d).1.length = 8 := by omega
  have hmem : ((x + d.1) + ((7 : Nat) : Int) * d.1, (y + d.2) + ((7 : Nat) : Int) * d.2)
      ∈ (dirScan b p x y d).1 := by
    rw [dirScan, scanPath_eq_map]
    apply List.mem_map.mpr
    refine ⟨7, ?_, rfl⟩
    apply List.mem_range.mpr
    rw [show (scanPath b (1 - p) d.1 d.2 8 (x + d.1) (y + d.2)).1.length = 8 from hL]
    omega
  have hbb := (scanPath_cells b (1 - p) d.1 d.2 8 _ _ _ hmem).1
  unfold is_in_bounds at hxy hbb
  fin_cases hd <;> simp at hbb <;> omega

theorem dirScan_path_eq (b : Board) (p x y : Int) (d : Int × Int) :
    (dirScan b p x y d).1 =
      (List.range (dirScan b p x y d).1.length).map
        (fun (j : Nat) => runPos x y d (j + 1)) := by
  have h := scanPath_eq_map b (1 - p) d.1 d.2 8 (x + d.1) (y + d.2)
  rw [dirScan] at *
  rw [h]
  simp only [List.length_map, List.length_range]
  apply List.map_congr_left
  intro j hj
  simp only [runPos, Prod.mk.injEq]
  push_cast
  constructor <;> ring

theorem dirScan_cells (b : Board) (p x y : Int) (d : Int × Int) :
    ∀ j : Nat, 1 ≤ j → j ≤ (dirScan b p x y d).1.length →
      is_in_bounds (runPos x y d j).1 (runPos x y d j).2 ∧
      getCell b (runPos x y d j).1 (runPos x y d j).2 = 1 - p := by
  intro j hj1 hjL
  have hmem : runPos x y d j ∈ (dirScan b p x y d).1 := by
    rw [dirScan_path_eq]
    apply List.mem_map.mpr
    refine ⟨j - 1, List.mem_range.mpr (by omega), by rw [show j - 1 + 1 = j from by omega]⟩
  exact scanPath_cells b (1 - p) d.1 d.2 8 (x + d.1) (y + d.2) _ hmem

theorem dirScan_final_eq (b : Board) (p x y : Int) (d : Int × Int) :
    (dirScan b p x y d).2.1 = (runPos x y d ((dirScan b p x y d).1.length + 1)).1 ∧
    (dirScan b p x y d).2.2 = (runPos x y d ((dirScan b p x y d).1.length + 1)).2 := by
  have h := scanPath_final b (1 - p) d.1 d.2 8 (x + d.1) (y + d.2)
  rw [dirScan] at *
  refine ⟨?_, ?_⟩
  · rw [h.1]; simp only [runPos]; push_cast; ring
  · rw [h.2]; simp only [runPos]; push_cast; ring

theorem dirScan_maximal (b : Board) (p x y : Int) (d : Int × Int)
    (hxy : is_in_bounds x y) (hd : d ∈ DIRECTIONS) :
    ¬(is_in_bounds (runPos x y d ((dirScan b p x y d).1.length + 1)).1
        (runPos x y d ((dirScan b p x y d).1.length + 1)).2 ∧
      getCell b (runPos x y d ((dirScan b p x y d).1.length + 1)).1
        (runPos x y d ((dirScan b p x y d).1.length + 1)).2 = 1 - p) := by
  have h7 := dirScan_length_le_seven b p x y d hxy hd
  have hstop := scanPath_stop b (1 - p) d.1 d.2 8 (x + d.1) (y + d.2)
    (by rw [dirScan] at h7; omega)
  have hfin := dirScan_final_eq b p x y d
  unfold dirScan at hfin ⊢
  rw [← hfin.1, ← hfin.2]
  exact hstop

/-- In Lean's integers `p ≠ 1 - p` always (`2 * p = 1` has no solution), so
a cell of the mover is never a cell of the opponent. -/
theorem player_ne_opponent (p : Int) : p ≠ 1 - p := by omega

/-- Specification link: a direction contributes flips exactly when it has a
validly bounded run, and such a run has exactly the scan's length. -/
theorem boundedRun_length (b : Board) (p x y : Int) (d : Int × Int)
    (hxy : is_in_bounds x y) (hd : d ∈ DIRECTIONS) (L : Nat)
    (h : BoundedRun b p x y d L) : L = (dirScan b p x y d).1.length := by
  obtain ⟨hL1, hcells, hbb, hcell⟩ := h
  by_contra hne
  rcases Nat.lt_or_ge (dirScan b p x y d).1.length L with hlt | hge
  · -- the scan stopped strictly inside the run: contradicts maximality
    have := dirScan_maximal b p x y d hxy hd
    exact this (hcells _ (by omega) (by omega))
  · -- the run ends strictly inside the scan: cell L+1 is both mover and opponent
    have h1 := dirScan_cells b p x y d (L + 1) (by omega) (by omega)
    exact player_ne_opponent p (hcell ▸ h1.2)

theorem dirFlipCond_iff_boundedRun (b : Board) (p x y : Int) (d : Int × Int)
    (hxy : is_in_bounds x y) (hd : d ∈ DIRECTIONS) :
    dirFlipCond b p x y d ↔ ∃ L, BoundedRun b p x y d L := by
  constructor
  · rintro ⟨hne, hbb, hcell⟩
    refine ⟨(dirScan b p x y d).1.length, ?_, ?_, ?_, ?_⟩
    · have : (dirScan b p x y d).1.length ≠ 0 := by
        intro h0; exact hne (List.length_eq_zero.mp h0)
      omega
    · intro j hj1 hjL; exact dirScan_cells b p x y d j hj1 hjL
    · rw [← (dirScan_final_eq b p x y d).1, ← (dirScan_final_eq b p x y d).2]
      exact hbb
    · rw [← (dirScan_final_eq b p x y d).1, ← (dirScan_final_eq b p x y d).2]
      exact hcell
  · rintro ⟨L, hrun⟩
    have hLlen := boundedRun_length b p x y d hxy hd L hrun
    obtain ⟨hL1, hcells, hbb, hcell⟩ := hrun
    refine ⟨?_, ?_, ?_⟩
    · intro hnil
      rw [List.length_eq_zero.mpr hnil] at hLlen
      omega
    · rw [(dirScan_final_eq b p x y d).1, (dirScan_final_eq b p x y d).2, ← hLlen]
      exact hbb
    · rw [(dirScan_final_eq b p x y d).1, (dirScan_final_eq b p x y d).2, ← hLlen]
      exact hcell

theorem mem_dirScan_path (b : Board) (p x y : Int) (d : Int × Int) (c : Int × Int) :
    c ∈ (dirScan b p x y d).1 ↔
      ∃ j, 1 ≤ j ∧ j ≤ (dirScan b p x y d).1.length ∧ c = runPos x y d j := by
  constructor
  · intro hc
    rw [dirScan_path_eq] at hc
    obtain ⟨j, hj, rfl⟩ := List.mem_map.mp hc
    exact ⟨j + 1, by omega, by have := List.mem_range.mp hj; omega, rfl⟩
  · rintro ⟨j, hj1, hjL, rfl⟩
    conv_lhs => rw [dirScan_path_eq]
    apply List.mem_map.mpr
    exact ⟨j - 1, List.mem_range.mpr (by omega), by rw [show j - 1 + 1 = j from by omega]⟩

/-- Every flipped cell holds an opponent piece on the pre-move board and is
in bounds. -/
theorem moveFlips_cells (b : Board) (p x y : Int) :
    ∀ c ∈ moveFlips b p x y,
      is_in_bounds c.1 c.2 ∧ getCell b c.1 c.2 = 1 - p := by
  intro c hc
  rw [moveFlips_eq_flatMap] at hc
  obtain ⟨d, _, hcd⟩ := List.mem_flatMap.mp hc
  have hcp : c ∈ (dirScan b p x y d).1 := by
    by_cases h : dirFlipCond b p x y d
    · rwa [if_pos h] at hcd
    · rw [if_neg h] at hcd; simp at hcd
  exact scanPath_cells b (1 - p) d.1 d.2 8 (x + d.1) (y + d.2) c hcp

/-- No flipped cell is the placed cell. -/
theorem moveFlips_ne_base (b : Board) (p x y : Int) :
    ∀ c ∈ moveFlips b p x y, c ≠ (x, y) := by
  intro c hc
  rw [moveFlips_eq_flatMap] at hc
  obtain ⟨d, hd, hcd⟩ := List.mem_flatMap.mp hc
  have hcp : c ∈ (dirScan b p x y d).1 := by
    by_cases h : dirFlipCond b p x y d
    · rwa [if_pos h] at hcd
    · rw [if_neg h] at hcd; simp at hcd
  obtain ⟨j, hj1, _, rfl⟩ := (mem_dirScan_path b p x y d c).mp hcp
  exact runPos_ne_base x y d hd j hj1

/-- The flip list is exactly the set of cells on validly bounded runs. -/
theorem mem_moveFlips_iff (b : Board) (p x y : Int) (hxy : is_in_bounds x y)
    (c : Int × Int) : c ∈ moveFlips b p x y ↔ OnFlipRun b p x y c := by
  rw [moveFlips_eq_flatMap, List.mem_flatMap]
  constructor
  · rintro ⟨d, hd, hcd⟩
    by_cases h : dirFlipCond b p x y d
    · rw [if_pos h] at hcd
      obtain ⟨L, hrun⟩ := (dirFlipCond_iff_boundedRun b p x y d hxy hd).mp h
      obtain ⟨j, hj1, hjL, rfl⟩ := (mem_dirScan_path b p x y d c).mp hcd
      refine ⟨d, hd, L, hrun, j, hj1, ?_, rfl⟩
      rw [boundedRun_length b p x y d hxy hd L hrun]
      exact hjL
    · rw [if_neg h] at hcd; simp at hcd
  · rintro ⟨d, hd, L, hrun, j, hj1, hjL, rfl⟩
    have hcond := (dirFlipCond_iff_boundedRun b p x y d hxy hd).mpr ⟨L, hrun⟩
    refine ⟨d, hd, ?_⟩
    rw [if_pos hcond]
    apply (mem_dirScan_path b p x y d _).mpr
    refine ⟨j, hj1, ?_, rfl⟩
    rw [← boundedRun_length b p x y d hxy hd L hrun]
    exact hjL

/-- The flip list has no duplicates: within one direction the offsets are
distinct, and runs of distinct directions share no cell. -/
theorem moveFlips_nodup (b : Board) (p x y : Int) :
    (moveFlips b p x y).Nodup := by
  rw [moveFlips_eq_flatMap, List.nodup_flatMap]
  constructor
  · intro d hd
    by_cases h : dirFlipCond b p x y d
    · rw [if_pos h, dirScan_path_eq]
      apply List.Nodup.map_on ?_ (List.nodup_range _)
      intro j hj j' hj' hEq
      have := runPos_dir_inj x y d d hd hd (j + 1) (j' + 1) (by omega) (by omega) hEq
      omega
    · rw [if_neg h]; exact List.nodup_nil
  · have hnd : DIRECTIONS.Nodup := by decide
    rw [List.pairwise_iff_forall_sublist]
    intro d d' hsub
    have hmemd : d ∈ DIRECTIONS := hsub.subset (by simp)
    have hmemd' : d' ∈ DIRECTIONS := hsub.subset (by simp)
    have hne : d ≠ d' := by
      have h2 := hnd.sublist hsub
      simp only [List.nodup_cons, List.mem_singleton] at h2
      exact h2.1
    intro c hc hc'
    simp only [] at hc hc'
    have hcp : c ∈ (dirScan b p x y d).1 := by
      by_cases h : dirFlipCond b p x y d
      · rwa [if_pos h] at hc
      · rw [if_neg h] at hc; simp at hc
    have hcp' : c ∈ (dirScan b p x y d').1 := by
      by_cases h : dirFlipCond b p x y d'
      · rwa [if_pos h] at hc'
      · rw [if_neg h] at hc'; simp at hc'
    obtain ⟨j, hj1, _, rfl⟩ := (mem_dirScan_path b p x y d c).mp hcp
    obtain ⟨j', hj1', _, hEq⟩ := (mem_dirScan_path b p x y d' _).mp hcp'
    exact hne (runPos_dir_inj x y d d' hmemd hmemd' j j' hj1 hj1' hEq).1

/-- Per-direction contribution to the flip list is at most 7 cells. -/
theorem flip_contrib_le_seven (b : Board) (p x y : Int) (d : Int × Int)
    (hxy : is_in_bounds x y) (hd : d ∈ DIRECTIONS) :
    (if dirFlipCond b p x y d then (dirScan b p x y d).1 else []).length ≤ 7 := by
  by_cases h : dirFlipCond b p x y d
  · rw [if_pos h]; exact dirScan_length_le_seven b p x y d hxy hd
  · rw [if_neg h]; simp

/-- At most 8 × 7 = 56 pieces can be flipped by one move. -/
theorem moveFlips_length_le (b : Board) (p x y : Int)
    (hxy : is_in_bounds x y) : (moveFlips b p x y).length ≤ 56 := by
  rw [moveFlips_eq_flatMap, List.length_flatMap]
  have h1 := flip_contrib_le_seven b p x y (-1, -1) hxy (by decide)
  have h2 := flip_contrib_le_seven b p x y (-1, 0) hxy (by decide)
  have h3 := flip_contrib_le_seven b p x y (-1, 1) hxy (by decide)
  have h4 := flip_contrib_le_seven b p x y (0, -1) hxy (by decide)
  have h5 := flip_contrib_le_seven b p x y (0, 1) hxy (by decide)
  have h6 := flip_contrib_le_seven b p x y (1, -1) hxy (by decide)
  have h7 := flip_contrib_le_seven b p x y (1, 0) hxy (by decide)
  have h8 := flip_contrib_le_seven b p x y (1, 1) hxy (by decide)
  simp only [DIRECTIONS, List.map_cons, List.map_nil, List.sum_cons, List.sum_nil,
    Function.comp_apply, Function.comp] at *
  omega

theorem legalDir_iff (b : Board) (p x y : Int) (d : Int × Int) :
    legalDir b p x y d = true ↔ dirFlipCond b p x y d := by
  simp only [legalDir, dirFlipCond, dirScan, scanSaw_eq_scanPath]
  simp [Bool.and_eq_true, decide_eq_true_eq, List.isEmpty_iff, and_assoc]

theorem isLegalCell_iff (b : Board) (p x y : Int) :
    isLegalCell b p x y = true ↔
      getCell b x y = 255 ∧ ∃ d ∈ DIRECTIONS, dirFlipCond b p x y d := by
  unfold isLegalCell
  simp [List.any_eq_true, legalDir_iff]

theorem mem_allCells (x y : Int) : (x, y) ∈ allCells ↔ is_in_bounds x y := by
  unfold allCells is_in_bounds
  simp only [List.mem_flatMap, List.mem_map, List.mem_range, Prod.mk.injEq]
  constructor
  · rintro ⟨j, hj, i, hi, rfl, rfl⟩
    omega
  · rintro ⟨hx0, hx8, hy0, hy8⟩
    exact ⟨y.toNat, by omega, x.toNat, by omega, by omega, by omega⟩

theorem mem_find_legal_moves (b : Board) (p x y : Int) :
    (x, y) ∈ find_legal_moves b p ↔
      is_in_bounds x y ∧ isLegalCell b p x y = true := by
  unfold find_legal_moves
  rw [List.mem_insertionSort, List.mem_filter, mem_allCells]

theorem moveFlips_ne_nil_iff (b : Board) (p x y : Int) :
    moveFlips b p x y ≠ [] ↔ ∃ d ∈ DIRECTIONS, dirFlipCond b p x y d := by
  rw [moveFlips_eq_flatMap, ne_eq, List.flatMap_eq_nil_iff]
  push_neg
  constructor
  · rintro ⟨d, hd, hne⟩
    refine ⟨d, hd, ?_⟩
    by_contra h
    rw [if_neg h] at hne
    exact hne rfl
  · rintro ⟨d, hd, hcond⟩
    refine ⟨d, hd, ?_⟩
    rw [if_pos hcond]
    exact hcond.1

theorem apply_move_applied_iff (b : Board) (p x y : Int) :
    (apply_player_move b p x y).1 = true ↔
      is_in_bounds x y ∧ getCell b x y = 255 ∧ moveFlips b p x y ≠ [] := by
  unfold apply_player_move
  by_cases hg : ¬is_in_bounds x y ∨ getCell b x y ≠ 255
  · rw [if_pos hg]
    simp only [not_or, not_not] at hg ⊢
    tauto
  · rw [if_neg hg]
    simp only [not_or, not_not] at hg
    by_cases hf : moveFlips b p x y = []
    · rw [if_pos hf]; simp [hf]
    · rw [if_neg hf]; simp [hg.1, hg.2, hf]

theorem apply_move_fail_eq (b : Board) (p x y : Int)
    (h : ¬((apply_player_move b p x y).1 = true)) :
    apply_player_move b p x y = (false, 0, b) := by
  unfold apply_player_move at *
  by_cases hg : ¬is_in_bounds x y ∨ getCell b x y ≠ 255
  · rw [if_pos hg]
  · rw [if_neg hg] at *
    by_cases hf : moveFlips b p x y = []
    · rw [if_pos hf]
    · rw [if_neg hf] at h
      simp at h

theorem apply_move_success_eq (b : Board) (p x y : Int)
    (h : (apply_player_move b p x y).1 = true) :
    apply_player_move b p x y =
      (true, 1 + (moveFlips b p x y).length,
        (moveFlips b p x y).foldl (fun bb c => setCell bb c.1 c.2 p)
          (setCell b x y p)) := by
  obtain ⟨hxy, hcell, hne⟩ := (apply_move_applied_iff b p x y).mp h
  unfold apply_player_move
  rw [if_neg (by simp [hxy, hcell]), if_neg hne]

theorem row_foldl_count (w : List Int) :
    ∀ acc : Nat × Nat,
      w.foldl (fun a c => if c = 0 then (a.1 + 1, a.2)
        else if c = 1 then (a.1, a.2 + 1) else a) acc =
      (acc.1 + w.count 0, acc.2 + w.count 1) := by
  induction w with
  | nil => intro acc; simp
  | cons c t ih =>
    intro acc
    simp only [List.foldl_cons, ih, List.count_cons, beq_iff_eq, Prod.mk.injEq]
    by_cases h0 : c = 0 <;> by_cases h1 : c = 1 <;>
      simp only [h0, h1, if_pos, if_neg, not_false_iff] <;>
      (try split_ifs) <;> omega

theorem count_pieces_foldl (rows : List (List Int)) :
    ∀ acc : Nat × Nat,
      rows.foldl (fun acc row => row.foldl
        (fun a c => if c = 0 then (a.1 + 1, a.2)
          else if c = 1 then (a.1, a.2 + 1) else a) acc) acc =
      (acc.1 + (rows.map (fun r => r.count 0)).sum,
       acc.2 + (rows.map (fun r => r.count 1)).sum) := by
  induction rows with
  | nil => intro acc; simp
  | cons r t ih =>
    intro acc
    rw [List.foldl_cons, ih]
    simp only [row_foldl_count, List.map_cons, List.sum_cons, Prod.mk.injEq]
    omega

/-- `count_pieces` tallies exactly the 0-cells and the 1-cells. -/
theorem count_pieces_eq (b : Board) :
    count_pieces b = (countVal b 0, countVal b 1) := by
  unfold count_pieces countVal
  rw [count_pieces_foldl]
  simp

theorem getD_set_self {α : Type} (l : List α) :
    ∀ (n : Nat) (a d : α), n < l.length → (l.set n a).getD n d = a := by
  induction l with
  | nil => intro n a d h; simp at h
  | cons c t ih =>
    intro n a d h
    cases n with
    | zero => simp
    | succ m =>
      simp only [List.set_cons_succ, List.getD_cons_succ]
      exact ih m a d (by simpa using h)

theorem getD_set_ne {α : Type} (l : List α) :
    ∀ (n m : Nat) (a d : α), n ≠ m → (l.set n a).getD m d = l.getD m d := by
  induction l with
  | nil => intro n m a d h; simp
  | cons c t ih =>
    intro n m a d h
    cases n with
    | zero =>
      cases m with
      | zero => omega
      | succ m' => simp
    | succ n' =>
      cases m with
      | zero => simp
      | succ m' =>
        simp only [List.set_cons_succ, List.getD_cons_succ]
        exact ih n' m' a d (by omega)

theorem row_set_count (r : List Int) :
    ∀ (m : Nat) (v w : Int), m < r.length →
      (r.set m v).count w + (if r.getD m 255 = w then 1 else 0) =
      r.count w + (if v = w then 1 else 0) := by
  induction r with
  | nil => intro m v w h; simp at h
  | cons c t ih =>
    intro m v w h
    cases m with
    | zero =>
      simp only [List.set_cons_zero, List.count_cons, List.getD_cons_zero, beq_iff_eq]
      split_ifs <;> omega
    | succ m' =>
      simp only [List.set_cons_succ, List.count_cons, List.getD_cons_succ, beq_iff_eq]
      have := ih m' v w (by simpa using h)
      split_ifs at this ⊢ <;> omega

theorem board_set_countVal (rows : List (List Int)) :
    ∀ (n : Nat) (w : Int) (s : List Int), n < rows.length →
      countVal (rows.set n s) w + (rows.getD n []).count w =
      countVal rows w + s.count w := by
  induction rows with
  | nil => intro n w s h; simp at h
  | cons r t ih =>
    intro n w s h
    cases n with
    | zero =>
      simp only [List.set_cons_zero, countVal, List.map_cons, List.sum_cons,
        List.getD_cons_zero]
      omega
    | succ m =>
      simp only [List.set_cons_succ, countVal, List.map_cons, List.sum_cons,
        List.getD_cons_succ]
      have := ih m w s (by simpa using h)
      unfold countVal at this
      omega

theorem getD_mem {α : Type} (l : List α) :
    ∀ (n : Nat) (d : α), n < l.length → l.getD n d ∈ l := by
  induction l with
  | nil => intro n d h; simp at h
  | cons c t ih =>
    intro n d h
    cases n with
    | zero => simp
    | succ m =>
      simp only [List.getD_cons_succ, List.mem_cons]
      exact Or.inr (ih m d (by simpa using h))

theorem set_mem_cases {α : Type} (l : List α) :
    ∀ (n : Nat) (a c : α), c ∈ l.set n a → c ∈ l ∨ c = a := by
  induction l with
  | nil => intro n a c h; simp at h
  | cons x t ih =>
    intro n a c h
    cases n with
    | zero =>
      simp only [List.set_cons_zero, List.mem_cons] at h
      rcases h with rfl | h
      · exact Or.inr rfl
      · exact Or.inl (List.mem_cons_of_mem _ h)
    | succ m =>
      simp only [List.set_cons_succ, List.mem_cons] at h
      rcases h with rfl | h
      · exact Or.inl (List.mem_cons_self _ _)
      · rcases ih m a c h with h' | h'
        · exact Or.inl (List.mem_cons_of_mem _ h')
        · exact Or.inr h'

theorem set_oob {α : Type} (l : List α) :
    ∀ (n : Nat) (a : α), l.length ≤ n → l.set n a = l := by
  induction l with
  | nil => intro n a h; simp
  | cons c t ih =>
    intro n a h
    cases n with
    | zero => simp at h
    | succ m =>
      simp only [List.set_cons_succ, List.cons.injEq, true_and]
      exact ih m a (by simpa using h)

theorem boardWF_setCell (b : Board) (x y v : Int) (hwf : BoardWF b) :
    BoardWF (setCell b x y v) := by
  obtain ⟨hlen, hrows⟩ := hwf
  by_cases hy : y.toNat < b.length
  · refine ⟨by simpa [setCell] using hlen, ?_⟩
    intro r hr
    rcases set_mem_cases b _ _ r hr with h | h
    · exact hrows r h
    · subst h
      rw [List.length_set]
      exact hrows _ (getD_mem b _ [] hy)
  · have heq : setCell b x y v = b := by
      unfold setCell
      exact set_oob b _ _ (by omega)
    rw [heq]
    exact ⟨hlen, hrows⟩

theorem toNat_lt_of_bounds {x y : Int} (h : is_in_bounds x y) :
    x.toNat < 8 ∧ y.toNat < 8 := by
  obtain ⟨h1, h2, h3, h4⟩ := h
  omega

theorem getCell_setCell_self (b : Board) (x y v : Int)
    (hwf : BoardWF b) (hxy : is_in_bounds x y) :
    getCell (setCell b x y v) x y = v := by
  obtain ⟨hx8, hy8⟩ := toNat_lt_of_bounds hxy
  have hylen : y.toNat < b.length := by rw [hwf.1]; exact hy8
  have hrowlen : (b.getD y.toNat []).length = 8 :=
    hwf.2 _ (getD_mem b _ [] hylen)
  unfold getCell setCell
  rw [getD_set_self b _ _ _ hylen]
  rw [getD_set_self _ _ _ _ (by rw [hrowlen]; exact hx8)]

theorem getCell_setCell_ne (b : Board) (x y v u w : Int)
    (hwf : BoardWF b) (hxy : is_in_bounds x y) (huw : is_in_bounds u w)
    (hne : (u, w) ≠ (x, y)) :
    getCell (setCell b x y v) u w = getCell b u w := by
  obtain ⟨hx8, hy8⟩ := toNat_lt_of_bounds hxy
  obtain ⟨hu8, hw8⟩ := toNat_lt_of_bounds huw
  unfold getCell setCell
  by_cases hrow : y.toNat = w.toNat
  · have hyw : y = w := by
      obtain ⟨_, _, _, _⟩ := hxy; obtain ⟨_, _, _, _⟩ := huw
      omega
    have hxu : u ≠ x := by
      intro hux; exact hne (by rw [hux, hyw])
    have hxun : x.toNat ≠ u.toNat := by
      obtain ⟨_, _, _, _⟩ := hxy; obtain ⟨_, _, _, _⟩ := huw
      omega
    have hylen : y.toNat < b.length := by rw [hwf.1]; exact hy8
    rw [← hrow, getD_set_self b _ _ _ hylen]
    rw [getD_set_ne _ _ _ _ _ hxun]
  · rw [getD_set_ne b _ _ _ _ hrow]

theorem countVal_setCell (b : Board) (x y v w : Int)
    (hwf : BoardWF b) (hxy : is_in_bounds x y) :
    countVal (setCell b x y v) w + (if getCell b x y = w then 1 else 0) =
      countVal b w + (if v = w then 1 else 0) := by
  obtain ⟨hx8, hy8⟩ := toNat_lt_of_bounds hxy
  have hylen : y.toNat < b.length := by rw [hwf.1]; exact hy8
  have hrowlen : (b.getD y.toNat []).length = 8 :=
    hwf.2 _ (getD_mem b _ [] hylen)
  have h1 := board_set_countVal b y.toNat w ((b.getD y.toNat []).set x.toNat v) hylen
  have h2 := row_set_count (b.getD y.toNat []) x.toNat v w (by rw [hrowlen]; exact hx8)
  have hgc : getCell b x y = (b.getD y.toNat []).getD x.toNat 255 := rfl
  rw [show setCell b x y v = b.set y.toNat ((b.getD y.toNat []).set x.toNat v) from rfl]
  rw [hgc]
  split_ifs at h2 ⊢ <;> omega

/-- Effect of setting a list of distinct in-bounds cells, all holding `old`,
to `pl`: counts shift by the list length and cells outside the list keep
their value. -/
theorem foldl_setCell_spec (pl old : Int) (hne : old ≠ pl) :
    ∀ (l : List (Int × Int)) (B : Board), BoardWF B → l.Nodup →
      (∀ c ∈ l, is_in_bounds c.1 c.2 ∧ getCell B c.1 c.2 = old) →
      BoardWF (l.foldl (fun bb c => setCell bb c.1 c.2 pl) B) ∧
      countVal (l.foldl (fun bb c => setCell bb c.1 c.2 pl) B) pl =
        countVal B pl + l.length ∧
      countVal (l.foldl (fun bb c => setCell bb c.1 c.2 pl) B) old + l.length =
        countVal B old ∧
      (∀ w, w ≠ pl → w ≠ old →
        countVal (l.foldl (fun bb c => setCell bb c.1 c.2 pl) B) w = countVal B w) ∧
      (∀ u v, is_in_bounds u v →
        getCell (l.foldl (fun bb c => setCell bb c.1 c.2 pl) B) u v =
          if (u, v) ∈ l then pl else getCell B u v) := by
  intro l
  induction l with
  | nil =>
    intro B hwf _ _
    refine ⟨hwf, by simp, by simp, fun w _ _ => by simp, fun u v _ => by simp⟩
  | cons c t ih =>
    obtain ⟨c1, c2⟩ := c
    intro B hwf hnd hcells
    have hc := hcells (c1, c2) (List.mem_cons_self _ _)
    have hct : (c1, c2) ∉ t := (List.nodup_cons.mp hnd).1
    have hndt : t.Nodup := (List.nodup_cons.mp hnd).2
    have hwf1 : BoardWF (setCell B c1 c2 pl) := boardWF_setCell B c1 c2 pl hwf
    have hcellst : ∀ c' ∈ t, is_in_bounds c'.1 c'.2 ∧
        getCell (setCell B c1 c2 pl) c'.1 c'.2 = old := by
      intro c' hc'
      have h' := hcells c' (List.mem_cons_of_mem _ hc')
      refine ⟨h'.1, ?_⟩
      rw [getCell_setCell_ne B c1 c2 pl c'.1 c'.2 hwf hc.1 h'.1 ?_]
      · exact h'.2
      · intro hEq
        apply hct
        rw [show c' = (c'.1, c'.2) from rfl] at hc'
        rw [hEq] at hc'
        exact hc'
    have IH := ih (setCell B c1 c2 pl) hwf1 hndt hcellst
    have hset := countVal_setCell B c1 c2 pl pl hwf hc.1
    rw [hc.2, if_neg hne, if_pos rfl] at hset
    have hsetold := countVal_setCell B c1 c2 pl old hwf hc.1
    rw [hc.2, if_pos rfl, if_neg (fun h => hne h.symm)] at hsetold
    simp only [List.foldl_cons]
    refine ⟨IH.1, ?_, ?_, ?_, ?_⟩
    · rw [IH.2.1]
      simp only [List.length_cons]
      omega
    · rw [List.length_cons]
      have := IH.2.2.1
      omega
    · intro w hw1 hw2
      rw [IH.2.2.2.1 w hw1 hw2]
      have hsw := countVal_setCell B c1 c2 pl w hwf hc.1
      rw [hc.2, if_neg (fun h => hw2 h.symm), if_neg (fun h => hw1 h.symm)] at hsw
      omega
    · intro u v huv
      rw [IH.2.2.2.2 u v huv]
      by_cases h1 : (u, v) ∈ t
      · rw [if_pos h1, if_pos (List.mem_cons_of_mem _ h1)]
      · rw [if_neg h1]
        by_cases h2 : (u, v) = (c1, c2)
        · rw [if_pos (by rw [h2]; exact List.mem_cons_self _ _)]
          have : u = c1 ∧ v = c2 := Prod.mk.injEq u v c1 c2 ▸ h2
          rw [this.1, this.2]
          exact getCell_setCell_self B c1 c2 pl hwf hc.1
        · rw [if_neg (by
            intro hmem
            rcases List.mem_cons.mp hmem with h' | h'
            · exact h2 h'
            · exact h1 h')]
          exact getCell_setCell_ne B c1 c2 pl u v hwf hc.1 huv h2

/-- Full description of a successful `apply_player_move`: the result board
flips exactly the placed cell and the flip list to the mover's colour, and
the piece counts shift accordingly. -/
theorem apply_success_spec (b : Board) (p x y : Int) (hwf : BoardWF b)
    (hp : p = 0 ∨ p = 1) (h : (apply_player_move b p x y).1 = true) :
    BoardWF (apply_player_move b p x y).2.2 ∧
    countVal (apply_player_move b p x y).2.2 p =
      countVal b p + 1 + (moveFlips b p x y).length ∧
    countVal (apply_player_move b p x y).2.2 (1 - p) + (moveFlips b p x y).length =
      countVal b (1 - p) ∧
    (∀ u v, is_in_bounds u v →
      getCell (apply_player_move b p x y).2.2 u v =
        if (u, v) = (x, y) ∨ (u, v) ∈ moveFlips b p x y then p
        else getCell b u v) := by
  obtain ⟨hxy, hcell, hnil⟩ := (apply_move_applied_iff b p x y).mp h
  have heq := apply_move_success_eq b p x y h
  have hop : (1 - p) ≠ p := fun hEq => player_ne_opponent p hEq.symm
  have h255p : (255 : Int) ≠ p := by rcases hp with rfl | rfl <;> decide
  have h255o : (255 : Int) ≠ 1 - p := by rcases hp with rfl | rfl <;> decide
  have hwf0 : BoardWF (setCell b x y p) := boardWF_setCell b x y p hwf
  have hcells0 : ∀ c ∈ moveFlips b p x y, is_in_bounds c.1 c.2 ∧
      getCell (setCell b x y p) c.1 c.2 = 1 - p := by
    intro c hc
    have h1 := moveFlips_cells b p x y c hc
    refine ⟨h1.1, ?_⟩
    rw [getCell_setCell_ne b x y p c.1 c.2 hwf hxy h1.1
      (by rw [show (c.1, c.2) = c from rfl]; exact moveFlips_ne_base b p x y c hc)]
    exact h1.2
  have FS := foldl_setCell_spec p (1 - p) hop (moveFlips b p x y)
    (setCell b x y p) hwf0 (moveFlips_nodup b p x y) hcells0
  have hc0p := countVal_setCell b x y p p hwf hxy
  rw [hcell, if_neg h255p, if_pos rfl] at hc0p
  have hc0o := countVal_setCell b x y p (1 - p) hwf hxy
  rw [hcell, if_neg h255o, if_neg (player_ne_opponent p)] at hc0o
  rw [heq]
  simp only []
  refine ⟨FS.1, ?_, ?_, ?_⟩
  · rw [FS.2.1]; omega
  · have := FS.2.2.1
    omega
  · intro u v huv
    rw [FS.2.2.2.2 u v huv]
    by_cases hm : (u, v) ∈ moveFlips b p x y
    · rw [if_pos hm, if_pos (Or.inr hm)]
    · rw [if_neg hm]
      by_cases hb : (u, v) = (x, y)
      · rw [if_pos (Or.inl hb)]
        have : u = x ∧ v = y := Prod.mk.injEq u v x y ▸ hb
        rw [this.1, this.2]
        exact getCell_setCell_self b x y p hwf hxy
      · rw [if_neg (by rintro (h' | h'); exacts [hb h', hm h'])]
        exact getCell_setCell_ne b x y p u v hwf hxy huv hb

/-- A cell is in `find_legal_moves` exactly when `apply_player_move`
accepts it. -/
theorem mem_legal_iff_applied (b : Board) (p x y : Int) :
    (x, y) ∈ find_legal_moves b p ↔ (apply_player_move b p x y).1 = true := by
  rw [mem_find_legal_moves, apply_move_applied_iff, isLegalCell_iff,
    moveFlips_ne_nil_iff]

theorem legal_apply (b : Board) (p : Int) :
    ∀ m ∈ find_legal_moves b p, (apply_player_move b p m.1 m.2).1 = true := by
  intro m hm
  exact (mem_legal_iff_applied b p m.1 m.2).mp hm

/-- Per-cell description of the board a successful move leaves behind
(holds for every player value, unlike the count statement). -/
theorem apply_success_cells (b : Board) (p x y : Int) (hwf : BoardWF b)
    (h : (apply_player_move b p x y).1 = true) :
    ∀ u v, is_in_bounds u v →
      getCell (apply_player_move b p x y).2.2 u v =
        if (u, v) = (x, y) ∨ (u, v) ∈ moveFlips b p x y then p
        else getCell b u v := by
  obtain ⟨hxy, hcell, hnil⟩ := (apply_move_applied_iff b p x y).mp h
  have heq := apply_move_success_eq b p x y h
  have hop : (1 - p) ≠ p := fun hEq => player_ne_opponent p hEq.symm
  have hwf0 : BoardWF (setCell b x y p) := boardWF_setCell b x y p hwf
  have hcells0 : ∀ c ∈ moveFlips b p x y, is_in_bounds c.1 c.2 ∧
      getCell (setCell b x y p) c.1 c.2 = 1 - p := by
    intro c hc
    have h1 := moveFlips_cells b p x y c hc
    refine ⟨h1.1, ?_⟩
    rw [getCell_setCell_ne b x y p c.1 c.2 hwf hxy h1.1
      (by rw [show (c.1, c.2) = c from rfl]; exact moveFlips_ne_base b p x y c hc)]
    exact h1.2
  have FS := foldl_setCell_spec p (1 - p) hop (moveFlips b p x y)
    (setCell b x y p) hwf0 (moveFlips_nodup b p x y) hcells0
  rw [heq]
  intro u v huv
  simp only []
  rw [FS.2.2.2.2 u v huv]
  by_cases hm : (u, v) ∈ moveFlips b p x y
  · rw [if_pos hm, if_pos (Or.inr hm)]
  · rw [if_neg hm]
    by_cases hb : (u, v) = (x, y)
    · rw [if_pos (Or.inl hb)]
      have : u = x ∧ v = y := Prod.mk.injEq u v x y ▸ hb
      rw [this.1, this.2]
      exact getCell_setCell_self b x y p hwf hxy
    · rw [if_neg (by rintro (h' | h'); exacts [hb h', hm h'])]
      exact getCell_setCell_ne b x y p u v hwf hxy huv hb

/-- C1: every cell returned by `find_legal_moves(board, player)` is accepted
by `apply_player_move(board, player, x, y)` with `pieces_changed ≥ 2`, and
conversely `apply_player_move` succeeds only on cells of
`find_legal_moves`.  (Proved for every integer `player`; the claim's
`player ∈ {0, 1}` is a special case.) -/
theorem claim_c1 (b : Board) (p x y : Int) :
    ((x, y) ∈ find_legal_moves b p ↔ (apply_player_move b p x y).1 = true) ∧
    ((x, y) ∈ find_legal_moves b p → 2 ≤ (apply_player_move b p x y).2.1) := by
  refine ⟨mem_legal_iff_applied b p x y, ?_⟩
  intro hm
  have h := (mem_legal_iff_applied b p x y).mp hm
  obtain ⟨_, _, hnil⟩ := (apply_move_applied_iff b p x y).mp h
  rw [apply_move_success_eq b p x y h]
  have hlen : (moveFlips b p x y).length ≠ 0 := by
    intro h0; exact hnil (List.length_eq_zero.mp h0)
  simp only []
  omega

theorem claim_c1_witness :
    (4, 2) ∈ find_legal_moves create_initial_board 0 ∧
    (apply_player_move create_initial_board 0 4 2).1 = true ∧
    2 ≤ (apply_player_move create_initial_board 0 4 2).2.1 := by
  have h := claim_c1 create_initial_board 0 4 2
  have hm : ((4 : Int), (2 : Int)) ∈ find_legal_moves create_initial_board 0 := by
    decide
  exact ⟨hm, h.1.mp hm, h.2 hm⟩

/-- C2: `apply_player_move` fails with `(false, 0)` leaving the board
untouched when the cell is off-board, occupied, or no direction has a
validly bounded run; otherwise it succeeds, reports `1 +` the number of
flipped pieces, places the mover's piece at `(x, y)` and flips exactly the
cells lying on validly bounded runs. -/
theorem claim_c2 (b : Board) (p x y : Int) (hwf : BoardWF b) :
    ((¬is_in_bounds x y ∨ getCell b x y ≠ 255 ∨ moveFlips b p x y = []) →
      apply_player_move b p x y = (false, 0, b)) ∧
    (is_in_bounds x y →
      (moveFlips b p x y = [] ↔ ¬∃ d ∈ DIRECTIONS, ∃ L, BoundedRun b p x y d L)) ∧
    (is_in_bounds x y → getCell b x y = 255 → moveFlips b p x y ≠ [] →
      (apply_player_move b p x y).1 = true ∧
      (apply_player_move b p x y).2.1 = 1 + (moveFlips b p x y).length ∧
      (∀ u v, is_in_bounds u v →
        (((u, v) = (x, y) ∨ OnFlipRun b p x y (u, v)) →
          getCell (apply_player_move b p x y).2.2 u v = p) ∧
        (¬((u, v) = (x, y) ∨ OnFlipRun b p x y (u, v)) →
          getCell (apply_player_move b p x y).2.2 u v = getCell b u v))) := by
  refine ⟨?_, ?_, ?_⟩
  · intro hfail
    apply apply_move_fail_eq
    rw [apply_move_applied_iff]
    tauto
  · intro hxy
    constructor
    · intro hnil hex
      obtain ⟨d, hd, L, hrun⟩ := hex
      have hcond := (dirFlipCond_iff_boundedRun b p x y d hxy hd).mpr ⟨L, hrun⟩
      exact (moveFlips_ne_nil_iff b p x y).mpr ⟨d, hd, hcond⟩ hnil
    · intro hnone
      by_contra hne
      obtain ⟨d, hd, hcond⟩ := (moveFlips_ne_nil_iff b p x y).mp hne
      obtain ⟨L, hrun⟩ := (dirFlipCond_iff_boundedRun b p x y d hxy hd).mp hcond
      exact hnone ⟨d, hd, L, hrun⟩
  · intro hxy hcell hnil
    have happ : (apply_player_move b p x y).1 = true :=
      (apply_move_applied_iff b p x y).mpr ⟨hxy, hcell, hnil⟩
    have hcells := apply_success_cells b p x y hwf happ
    refine ⟨happ, ?_, ?_⟩
    · rw [apply_move_success_eq b p x y happ]
    · intro u v huv
      have hiff := mem_moveFlips_iff b p x y hxy (u, v)
      constructor
      · intro hcase
        rw [hcells u v huv, if_pos ?_]
        rcases hcase with h' | h'
        · exact Or.inl h'
        · exact Or.inr (hiff.mpr h')
      · intro hcase
        rw [hcells u v huv, if_neg ?_]
        rintro (h' | h')
        · exact hcase (Or.inl h')
        · exact hcase (Or.inr (hiff.mp h'))

theorem claim_c2_witness :
    BoardWF create_initial_board ∧
    apply_player_move create_initial_board 0 0 0 = (false, 0, create_initial_board) ∧
    (apply_player_move create_initial_board 0 4 2).1 = true := by
  have hwf : BoardWF create_initial_board := by
    constructor
    · decide
    · decide
  have h := claim_c2 create_initial_board 0 0 0 hwf
  have h2 := claim_c2 create_initial_board 0 4 2 hwf
  refine ⟨hwf, ?_, ?_⟩
  · exact h.1 (Or.inr (Or.inr (by decide)))
  · exact (h2.2.2 (by decide) (by decide) (by decide)).1

/-- C3: `check_game_over(board, side)` is true exactly when neither side has
a legal move, and it is false on the canonical initial board for player 0. -/
theorem claim_c3 :
    (∀ (b : Board) (s : Int), check_game_over b s = true ↔
      (find_legal_moves b s = [] ∧ find_legal_moves b (1 - s) = [])) ∧
    check_game_over create_initial_board 0 = false := by
  constructor
  · intro b s
    unfold check_game_over
    by_cases h1 : find_legal_moves b s = [] <;>
      by_cases h2 : find_legal_moves b (1 - s) = [] <;>
      simp [h1, h2]
  · decide

theorem claim_c3_witness : check_game_over create_initial_board 0 = false :=
  claim_c3.2

/-- C7 counterexample: on the initial board the returned list is sorted by
column (`x`) first — Python's tuple order on `(x, y)` — and is *not* in
row-major (row `y` first) order as the claim states: `(2, 4)` with row 4
precedes `(4, 2)` with row 2. -/
theorem claim_c7_counterexample :
    find_legal_moves create_initial_board 0 = [(2, 4), (3, 5), (4, 2), (5, 3)] ∧
    ¬ List.Sorted rowMajorLe (find_legal_moves create_initial_board 0) := by
  constructor
  · decide
  · decide

/-- C7 amended: `find_legal_moves` is duplicate-free and sorted in Python's
tuple order on `(x, y)` — column (`x`) first, row (`y`) second — not
row-major. -/
theorem claim_c7_amended (b : Board) (p : Int) :
    (find_legal_moves b p).Nodup ∧ List.Sorted lexLe (find_legal_moves b p) := by
  constructor
  · have hperm := List.perm_insertionSort lexLe
      (allCells.filter fun c => isLegalCell b p c.1 c.2)
    have hnd : (allCells.filter fun c => isLegalCell b p c.1 c.2).Nodup :=
      List.Nodup.filter _ (by decide)
    exact hperm.nodup_iff.mpr hnd
  · exact List.sorted_insertionSort lexLe _

/-- C8 counterexample: on the first move of the game the mover's count rises
by 2 (placed piece + one flip) while the opponent's count falls by 1, so the
two deltas are not equal as the claim asserts. -/
theorem claim_c8_counterexample :
    count_pieces create_initial_board = (2, 2) ∧
    count_pieces (apply_player_move create_initial_board 0 4 2).2.2 = (4, 1) ∧
    (4 : Nat) - 2 ≠ 2 - 1 := by
  refine ⟨by decide, by decide, by decide⟩

/-- C8 amended: a successful move flips `f` pieces with `1 ≤ f ≤ 56`, so the
reported change is `1 + f ≤ 57`; the mover's count rises by `1 + f`, the
opponent's falls by `f` (one less than the mover's rise), and the number of
occupied cells rises by exactly 1 (in particular by at most 57). -/
theorem claim_c8_amended (b : Board) (p x y : Int) (hwf : BoardWF b)
    (hp : p = 0 ∨ p = 1) (h : (apply_player_move b p x y).1 = true) :
    ∃ f : Nat, 1 ≤ f ∧ f ≤ 56 ∧
      (apply_player_move b p x y).2.1 = 1 + f ∧
      count_pieces b = (countVal b 0, countVal b 1) ∧
      count_pieces (apply_player_move b p x y).2.2 =
        (countVal (apply_player_move b p x y).2.2 0,
         countVal (apply_player_move b p x y).2.2 1) ∧
      countVal (apply_player_move b p x y).2.2 p = countVal b p + (1 + f) ∧
      countVal (apply_player_move b p x y).2.2 (1 - p) + f = countVal b (1 - p) ∧
      countVal (apply_player_move b p x y).2.2 0 +
          countVal (apply_player_move b p x y).2.2 1 =
        countVal b 0 + countVal b 1 + 1 := by
  obtain ⟨hxy, hcell, hnil⟩ := (apply_move_applied_iff b p x y).mp h
  have spec := apply_success_spec b p x y hwf hp h
  refine ⟨(moveFlips b p x y).length, ?_, moveFlips_length_le b p x y hxy, ?_,
    count_pieces_eq b, count_pieces_eq _, by rw [spec.2.1]; omega, spec.2.2.1, ?_⟩
  · have : (moveFlips b p x y).length ≠ 0 := by
      intro h0; exact hnil (List.length_eq_zero.mp h0)
    omega
  · rw [apply_move_success_eq b p x y h]
  · have h1 := spec.2.1
    have h2 := spec.2.2.1
    rcases hp with rfl | rfl
    · norm_num at h1 h2
      omega
    · norm_num at h1 h2
      omega

theorem claim_c8_amended_witness :
    ∃ f : Nat, 1 ≤ f ∧ f ≤ 56 ∧
      (apply_player_move create_initial_board 0 4 2).2.1 = 1 + f ∧
      count_pieces create_initial_board =
        (countVal create_initial_board 0, countVal create_initial_board 1) ∧
      count_pieces (apply_player_move create_initial_board 0 4 2).2.2 =
        (countVal (apply_player_move create_initial_board 0 4 2).2.2 0,
         countVal (apply_player_move create_initial_board 0 4 2).2.2 1) ∧
      countVal (apply_player_move create_initial_board 0 4 2).2.2 0 =
        countVal create_initial_board 0 + (1 + f) ∧
      countVal (apply_player_move create_initial_board 0 4 2).2.2 (1 - 0) + f =
        countVal create_initial_board (1 - 0) ∧
      countVal (apply_player_move create_initial_board 0 4 2).2.2 0 +
          countVal (apply_player_move create_initial_board 0 4 2).2.2 1 =
        countVal create_initial_board 0 + countVal create_initial_board 1 + 1 :=
  claim_c8_amended create_initial_board 0 4 2
    (by constructor <;> decide) (Or.inl rfl) (by decide)

/-- The strict-improvement fold of `cpu_select_move` keeps the first
maximum: the result is the accumulator itself, or a list element whose
score strictly exceeds the accumulator's and every earlier element's, and
is not exceeded by any later element's. -/
theorem foldBest_spec {α : Type} (g : α → Int) :
    ∀ (l : List α) (acc : Int × α),
      (∀ m ∈ l, g m ≤ (l.foldl (fun a m => if g m > a.1 then (g m, m) else a) acc).1) ∧
      acc.1 ≤ (l.foldl (fun a m => if g m > a.1 then (g m, m) else a) acc).1 ∧
      ((l.foldl (fun a m => if g m > a.1 then (g m, m) else a) acc) = acc ∨
        ∃ l1 m l2, l = l1 ++ m :: l2 ∧
          (l.foldl (fun a m => if g m > a.1 then (g m, m) else a) acc) = (g m, m) ∧
          acc.1 < g m ∧
          (∀ m' ∈ l1, g m' < g m) ∧ (∀ m' ∈ l2, g m' ≤ g m)) := by
  intro l
  induction l with
  | nil =>
    intro acc
    refine ⟨by simp, by simp, Or.inl rfl⟩
  | cons m t ih =>
    intro acc
    simp only [List.foldl_cons]
    by_cases hgm : g m > acc.1
    · rw [if_pos hgm]
      have IH := ih (g m, m)
      refine ⟨?_, ?_, ?_⟩
      · intro m' hm'
        rcases List.mem_cons.mp hm' with rfl | hmem
        · exact le_trans (by simp) IH.2.1
        · exact IH.1 m' hmem
      · exact le_trans (le_of_lt hgm) IH.2.1
      · rcases IH.2.2 with heq | ⟨t1, mm, t2, hsplit, heq, hlt, hbefore, hafter⟩
        · refine Or.inr ⟨[], m, t, by simp, by rw [heq], hgm, by simp, ?_⟩
          intro m' hm'
          have := IH.1 m' hm'
          rw [heq] at this
          exact this
        · refine Or.inr ⟨m :: t1, mm, t2, by rw [hsplit]; rfl, heq, ?_, ?_, hafter⟩
          · exact lt_trans hgm (by simpa using hlt)
          · intro m' hm'
            rcases List.mem_cons.mp hm' with rfl | hmem
            · simpa using hlt
            · exact hbefore m' hmem
    · rw [if_neg hgm]
      have IH := ih acc
      refine ⟨?_, IH.2.1, ?_⟩
      · intro m' hm'
        rcases List.mem_cons.mp hm' with rfl | hmem
        · exact le_trans (by omega) IH.2.1
        · exact IH.1 m' hmem
      · rcases IH.2.2 with heq | ⟨t1, mm, t2, hsplit, heq, hlt, hbefore, hafter⟩
        · exact Or.inl heq
        · refine Or.inr ⟨m :: t1, mm, t2, by rw [hsplit]; rfl, heq, hlt, ?_, hafter⟩
          intro m' hm'
          rcases List.mem_cons.mp hm' with rfl | hmem
          · omega
          · exact hbefore m' hmem

/-- Over a list of legal moves the success check in `cpu_select_move`'s loop
never skips, so the fold equals the bare best-score fold. -/
theorem cpu_fold_eq (b : Board) (p : Int) :
    ∀ (l : List (Int × Int)) (acc : Int × (Int × Int)),
      (∀ m ∈ l, (apply_player_move b p m.1 m.2).1 = true) →
      l.foldl (fun acc m =>
        if !(apply_player_move b p m.1 m.2).1 then acc
        else if cpu_move_score b p m > acc.1 then (cpu_move_score b p m, m)
        else acc) acc =
      l.foldl (fun a m =>
        if cpu_move_score b p m > a.1 then (cpu_move_score b p m, m) else a) acc := by
  intro l
  induction l with
  | nil => intro acc _; rfl
  | cons m t ih =>
    intro acc hl
    simp only [List.foldl_cons]
    rw [hl m (List.mem_cons_self _ _)]
    simp only [Bool.not_true]
    rw [show (if false = true then acc
        else if cpu_move_score b p m > acc.1 then (cpu_move_score b p m, m)
        else acc) = (if cpu_move_score b p m > acc.1 then (cpu_move_score b p m, m)
        else acc) from by simp]
    exact ih _ (fun m' hm' => hl m' (List.mem_cons_of_mem _ hm'))

/-- Every candidate score is non-negative: `pieces_changed` is a natural
number and both bonuses are non-negative. -/
theorem cpu_move_score_nonneg (b : Board) (p : Int) (m : Int × Int) :
    0 ≤ cpu_move_score b p m := by
  unfold cpu_move_score
  have : (0 : Int) ≤ ((apply_player_move b p m.1 m.2).2.1 : Int) := by positivity
  split_ifs <;> omega

/-- C9: `cpu_select_move` returns none exactly when there is no legal move;
otherwise it returns the legal move with maximal score
(`pieces_changed + 100` for a corner, else `+ 10` for an edge, else `+ 0`),
the first-enumerated one among ties: every earlier legal move scores
strictly less and every later one scores at most as much. -/
theorem claim_c9 (b : Board) (p : Int) :
    (cpu_select_move b p = none ↔ find_legal_moves b p = []) ∧
    (∀ m, cpu_select_move b p = some m →
      ∃ l1 l2, find_legal_moves b p = l1 ++ m :: l2 ∧
        (∀ m' ∈ l1, cpu_move_score b p m' < cpu_move_score b p m) ∧
        (∀ m' ∈ l2, cpu_move_score b p m' ≤ cpu_move_score b p m)) := by
  by_cases hmoves : find_legal_moves b p = []
  · constructor
    · rw [hmoves]
      unfold cpu_select_move
      rw [hmoves]
      simp
    · intro m hm
      unfold cpu_select_move at hm
      rw [hmoves] at hm
      simp at hm
  · obtain ⟨m0, t, ht⟩ := List.exists_cons_of_ne_nil hmoves
    have hstep := cpu_fold_eq b p (m0 :: t) (-1, m0)
      (fun m' hm' => legal_apply b p m' (ht ▸ hm'))
    have hdef : cpu_select_move b p =
        some ((m0 :: t).foldl (fun acc m =>
          if !(apply_player_move b p m.1 m.2).1 then acc
          else if cpu_move_score b p m > acc.1 then (cpu_move_score b p m, m)
          else acc) (-1, m0)).2 := by
      unfold cpu_select_move
      rw [ht]
    have hsel : cpu_select_move b p =
        some ((find_legal_moves b p).foldl
          (fun a m =>
            if cpu_move_score b p m > a.1 then (cpu_move_score b p m, m) else a)
          (-1, m0)).2 := by
      rw [hdef, hstep, ← ht]
    constructor
    · rw [hsel]
      constructor
      · intro h'; exact absurd h' (by simp)
      · intro h'; exact absurd h' hmoves
    · intro m hm
      rw [hsel] at hm
      have FB := foldBest_spec (cpu_move_score b p) (find_legal_moves b p) (-1, m0)
      rcases FB.2.2 with heq | ⟨l1, mm, l2, hsplit, heq, _, hbefore, hafter⟩
      · exfalso
        have hm0 : m0 ∈ find_legal_moves b p := ht ▸ List.mem_cons_self _ _
        have h1 := FB.1 m0 hm0
        rw [heq] at h1
        have := cpu_move_score_nonneg b p m0
        simp at h1
        omega
      · have hmm : m = mm := by
          rw [heq] at hm
          simpa using hm.symm
        subst hmm
        exact ⟨l1, l2, hsplit, hbefore, hafter⟩

theorem claim_c9_witness :
    (cpu_select_move create_initial_board 0 = none ↔
      find_legal_moves create_initial_board 0 = []) ∧
    (∀ m, cpu_select_move create_initial_board 0 = some m →
      ∃ l1 l2, find_legal_moves create_initial_board 0 = l1 ++ m :: l2 ∧
        (∀ m' ∈ l1, cpu_move_score create_initial_board 0 m' <
          cpu_move_score create_initial_board 0 m) ∧
        (∀ m' ∈ l2, cpu_move_score create_initial_board 0 m' ≤
          cpu_move_score create_initial_board 0 m)) :=
  claim_c9 create_initial_board 0

/-- C4: the PLACE handler fails with exactly the error code of the first
violated precondition — NOT_IN_LOBBY (no lobby), GAME_NOT_ACTIVE (status
not playing), SPECTATOR_MOVE_NOT_ALLOWED (sender not seated), NOT_YOUR_TURN
(wrong slot), ILLEGAL_MOVE (cell not in the legal-move list), APPLY_FAILED
(apply rejects, unreachable after the legality check) — and every error
leaves the lobby unchanged; when all preconditions hold no error is sent. -/
theorem claim_c4 (lb? : Option Lobby) (pid : Nat) (x y : Int) :
    ((handle_place lb? pid x y).1 ≠ none → (handle_place lb? pid x y).2 = lb?) ∧
    (lb? = none → (handle_place lb? pid x y).1 = some ErrorCode.NOT_IN_LOBBY) ∧
    (∀ lb, lb? = some lb →
      (lb.status ≠ GameStatus.PLAYING →
        (handle_place lb? pid x y).1 = some ErrorCode.GAME_NOT_ACTIVE) ∧
      (lb.status = GameStatus.PLAYING →
        lb.players.findIdx? (fun s => s == Slot.human pid) = none →
        (handle_place lb? pid x y).1 = some ErrorCode.SPECTATOR_MOVE_NOT_ALLOWED) ∧
      (∀ idx, lb.status = GameStatus.PLAYING →
        lb.players.findIdx? (fun s => s == Slot.human pid) = some idx →
        lb.turn_index ≠ idx →
        (handle_place lb? pid x y).1 = some ErrorCode.NOT_YOUR_TURN) ∧
      (∀ idx, lb.status = GameStatus.PLAYING →
        lb.players.findIdx? (fun s => s == Slot.human pid) = some idx →
        lb.turn_index = idx →
        (x, y) ∉ find_legal_moves lb.board (idx : Int) →
        (handle_place lb? pid x y).1 = some ErrorCode.ILLEGAL_MOVE) ∧
      (∀ idx, lb.status = GameStatus.PLAYING →
        lb.players.findIdx? (fun s => s == Slot.human pid) = some idx →
        lb.turn_index = idx →
        (x, y) ∈ find_legal_moves lb.board (idx : Int) →
        ¬(apply_player_move lb.board (idx : Int) x y).1 = true →
        (handle_place lb? pid x y).1 = some ErrorCode.APPLY_FAILED) ∧
      (∀ idx, lb.status = GameStatus.PLAYING →
        lb.players.findIdx? (fun s => s == Slot.human pid) = some idx →
        lb.turn_index = idx →
        (x, y) ∈ find_legal_moves lb.board (idx : Int) →
        (handle_place lb? pid x y).1 = none)) := by
  cases lb? with
  | none =>
    refine ⟨fun _ => rfl, fun _ => rfl, ?_⟩
    intro lb hlb
    cases hlb
  | some lb =>
    by_cases hst : lb.status = GameStatus.PLAYING
    · cases hidx : lb.players.findIdx? (fun s => s == Slot.human pid) with
      | none =>
        have hres : handle_place (some lb) pid x y =
            (some ErrorCode.SPECTATOR_MOVE_NOT_ALLOWED, some lb) := by
          simp [handle_place, hst, hidx]
        refine ⟨fun _ => by rw [hres], fun h => Option.noConfusion h, ?_⟩
        intro lb' hlb'
        cases hlb'
        refine ⟨fun h => absurd hst h, fun _ _ => by rw [hres], ?_, ?_, ?_, ?_⟩
        · intro idx _ hidx' _
          rw [hidx] at hidx'; cases hidx'
        · intro idx _ hidx' _ _
          rw [hidx] at hidx'; cases hidx'
        · intro idx _ hidx' _ _ _
          rw [hidx] at hidx'; cases hidx'
        · intro idx _ hidx' _ _
          rw [hidx] at hidx'; cases hidx'
      | some idx =>
        by_cases hturn : lb.turn_index = idx
        · by_cases hlm : (x, y) ∈ find_legal_moves lb.board (idx : Int)
          · -- success case
            have happ : (apply_player_move lb.board (idx : Int) x y).1 = true :=
              (mem_legal_iff_applied lb.board (idx : Int) x y).mp hlm
            have hres1 : (handle_place (some lb) pid x y).1 = none := by
              simp [handle_place, hst, hidx, hturn, hlm, happ]
            refine ⟨fun h => absurd hres1 h, fun h => Option.noConfusion h, ?_⟩
            intro lb' hlb'
            cases hlb'
            refine ⟨fun h => absurd hst h, ?_, ?_, ?_, ?_, ?_⟩
            · intro _ hidx'
              rw [hidx] at hidx'; cases hidx'
            · intro idx' _ hidx' hturn'
              rw [hidx] at hidx'
              cases hidx'
              exact absurd hturn hturn'
            · intro idx' _ hidx' _ hlm'
              rw [hidx] at hidx'
              cases hidx'
              exact absurd hlm hlm'
            · intro idx' _ hidx' _ _ happ'
              rw [hidx] at hidx'
              cases hidx'
              exact absurd happ happ'
            · intro idx' _ hidx' _ _
              rw [hidx] at hidx'
              cases hidx'
              exact hres1
          · -- illegal move
            have hres : handle_place (some lb) pid x y =
                (some ErrorCode.ILLEGAL_MOVE, some lb) := by
              simp [handle_place, hst, hidx, hturn, hlm]
            refine ⟨fun _ => by rw [hres], fun h => Option.noConfusion h, ?_⟩
            intro lb' hlb'
            cases hlb'
            refine ⟨fun h => absurd hst h, ?_, ?_, ?_, ?_, ?_⟩
            · intro _ hidx'
              rw [hidx] at hidx'; cases hidx'
            · intro idx' _ hidx' hturn'
              rw [hidx] at hidx'
              cases hidx'
              exact absurd hturn hturn'
            · intro idx' _ hidx' _ _
              rw [hidx] at hidx'
              cases hidx'
              rw [hres]
            · intro idx' _ hidx' _ hlm' _
              rw [hidx] at hidx'
              cases hidx'
              exact absurd hlm' hlm
            · intro idx' _ hidx' _ hlm'
              rw [hidx] at hidx'
              cases hidx'
              exact absurd hlm' hlm
        · -- wrong turn
          have hres : handle_place (some lb) pid x y =
              (some ErrorCode.NOT_YOUR_TURN, some lb) := by
            simp [handle_place, hst, hidx, hturn]
          refine ⟨fun _ => by rw [hres], fun h => Option.noConfusion h, ?_⟩
          intro lb' hlb'
          cases hlb'
          refine ⟨fun h => absurd hst h, ?_, ?_, ?_, ?_, ?_⟩
          · intro _ hidx'
            rw [hidx] at hidx'; cases hidx'
          · intro idx' _ hidx' _
            rw [hidx] at hidx'
            cases hidx'
            rw [hres]
          · intro idx' _ hidx' hturn' _
            rw [hidx] at hidx'
            cases hidx'
            exact absurd hturn' hturn
          · intro idx' _ hidx' hturn' _ _
            rw [hidx] at hidx'
            cases hidx'
            exact absurd hturn' hturn
          · intro idx' _ hidx' hturn' _
            rw [hidx] at hidx'
            cases hidx'
            exact absurd hturn' hturn
    · -- not playing
      have hres : handle_place (some lb) pid x y =
          (some ErrorCode.GAME_NOT_ACTIVE, some lb) := by
        simp [handle_place, hst]
      refine ⟨fun _ => by rw [hres], fun h => Option.noConfusion h, ?_⟩
      intro lb' hlb'
      cases hlb'
      refine ⟨fun _ => by rw [hres], fun h _ => absurd h hst, ?_, ?_, ?_, ?_⟩
      · intro idx h _ _; exact absurd h hst
      · intro idx h _ _ _; exact absurd h hst
      · intro idx h _ _ _ _; exact absurd h hst
      · intro idx h _ _ _; exact absurd h hst

theorem claim_c4_witness :
    (handle_place (some sampleLobby) 7 0 0).1 = some ErrorCode.ILLEGAL_MOVE ∧
    (handle_place (some sampleLobby) 7 0 0).2 = some sampleLobby := by
  have h := claim_c4 (some sampleLobby) 7 0 0
  have hill := (h.2.2 sampleLobby rfl).2.2.2.1 0 rfl (by decide) rfl (by decide)
  exact ⟨hill, h.1 (by rw [hill]; simp)⟩

theorem findIdx?_acc_bounds {α : Type} (q : α → Bool) :
    ∀ (l : List α) (s i : Nat), List.findIdx? q l s = some i →
      s ≤ i ∧ i < s + l.length := by
  intro l
  induction l with
  | nil =>
    intro s i h
    simp [List.findIdx?] at h
  | cons a t ih =>
    intro s i h
    rw [List.findIdx?_cons] at h
    by_cases hq : q a
    · rw [if_pos hq] at h
      cases h
      simp
    · rw [if_neg hq] at h
      have := ih (s + 1) i h
      simp only [List.length_cons]
      omega

theorem findIdx?_lt_length {α : Type} (q : α → Bool) (l : List α) (i : Nat)
    (h : l.findIdx? q = some i) : i < l.length := by
  have := findIdx?_acc_bounds q l 0 i h
  omega

theorem lookup_filter_ne (lid : Nat) :
    ∀ l : List (Nat × Lobby),
      List.lookup lid (l.filter (fun e => e.1 != lid)) = none := by
  intro l
  induction l with
  | nil => simp
  | cons e t ih =>
    obtain ⟨k, v⟩ := e
    by_cases hk : k = lid
    · have h1 : (k != lid) = false := by
        simp [bne_eq_false_iff_eq, hk]
      simp only [List.filter_cons, h1]
      simpa using ih
    · have h1 : (k != lid) = true := by
        simp [bne_iff_ne]
        exact hk
      have h2 : (lid == k) = false := by
        simp [beq_eq_false_iff_ne]
        exact fun h => hk h.symm
      simp only [List.filter_cons, h1, if_pos, List.lookup_cons, h2]
      exact ih

theorem lookup_map_update (lid : Nat) (lb' : Lobby) :
    ∀ (l : List (Nat × Lobby)) (lb0 : Lobby), List.lookup lid l = some lb0 →
      List.lookup lid (l.map (fun e => if e.1 = lid then (e.1, lb') else e)) =
        some lb' := by
  intro l
  induction l with
  | nil => intro lb0 h; simp at h
  | cons e t ih =>
    obtain ⟨k, v⟩ := e
    intro lb0 h
    by_cases hk : k = lid
    · simp only [List.map_cons]
      rw [show (if (k, v).1 = lid then ((k, v).1, lb') else (k, v)) = (k, lb') from
        by simp [hk]]
      rw [List.lookup_cons]
      simp [hk]
    · have h2 : (lid == k) = false := by
        simp [beq_eq_false_iff_ne]
        exact fun h => hk h.symm
      simp only [List.map_cons]
      rw [show (if (k, v).1 = lid then ((k, v).1, lb') else (k, v)) = (k, v) from
        by simp [hk]]
      rw [List.lookup_cons, h2]
      apply ih lb0
      rw [List.lookup_cons, h2] at h
      exact h

/-- C5 amended: leave pops the player's slot (and its address) from the
lobby and clears the player's lobby reference; the lobby is removed from the
live table only when the players list becomes empty after the removal —
since a bot slot stays behind, a human-vs-bot lobby is *not* destroyed when
its only human leaves. -/
theorem claim_c5_amended (p : PlayerR) (lobbies : List (Nat × Lobby))
    (lid : Nat) (lb : Lobby) (idx : Nat)
    (hpl : p.lobby_id = some lid)
    (hlk : List.lookup lid lobbies = some lb)
    (hidx : lb.players.findIdx? (fun s => s == Slot.human p.player_id) = some idx) :
    (handle_leave p lobbies).1.lobby_id = none ∧
    (handle_leave p lobbies).1.player_id = p.player_id ∧
    (lb.players.eraseIdx idx).length + 1 = lb.players.length ∧
    (lb.players.eraseIdx idx = [] →
      List.lookup lid (handle_leave p lobbies).2 = none) ∧
    (lb.players.eraseIdx idx ≠ [] →
      List.lookup lid (handle_leave p lobbies).2 =
        some { lb with players := lb.players.eraseIdx idx,
                       player_addresses := lb.player_addresses.eraseIdx idx }) := by
  have hlt := findIdx?_lt_length _ lb.players idx hidx
  have hres : handle_leave p lobbies =
      ({ p with lobby_id := none },
       if lb.players.eraseIdx idx = [] then
         lobbies.filter (fun e => e.1 != lid)
       else lobbies.map (fun e => if e.1 = lid then
         (e.1, { lb with players := lb.players.eraseIdx idx,
                         player_addresses := lb.player_addresses.eraseIdx idx })
         else e)) := by
    unfold handle_leave
    rw [hpl]
    simp only [hlk, hidx]
    by_cases hnil : lb.players.eraseIdx idx = [] <;> simp [hnil]
  rw [hres]
  refine ⟨rfl, rfl, List.length_eraseIdx_add_one hlt, ?_, ?_⟩
  · intro hnil
    simp only [if_pos hnil]
    exact lookup_filter_ne lid lobbies
  · intro hnil
    simp only [if_neg hnil]
    exact lookup_map_update lid _ lobbies lb hlk

theorem claim_c5_amended_witness :
    ({ player_id := 7, lobby_id := some 1 } : PlayerR).lobby_id = some 1 ∧
    (handle_leave { player_id := 7, lobby_id := some 1 }
      [(1, sampleLobby)]).1.lobby_id = none ∧
    List.lookup 1 (handle_leave { player_id := 7, lobby_id := some 1 }
      [(1, sampleLobby)]).2 =
      some { sampleLobby with players := [Slot.cpu],
                              player_addresses := [none] } := by
  have h := claim_c5_amended { player_id := 7, lobby_id := some 1 }
    [(1, sampleLobby)] 1 sampleLobby 0 rfl (by decide) (by decide)
  exact ⟨rfl, h.1, by rw [h.2.2.2.2 (by decide)]; rfl⟩

/-- C5 counterexample: after the only human (id 7) leaves a human-vs-bot
lobby, the bot slot keeps the players list non-empty, so the lobby is NOT
removed from the live table — contradicting the claim that it is
destroyed. -/
theorem claim_c5_counterexample :
    (List.lookup 1 (handle_leave { player_id := 7, lobby_id := some 1 }
      [(1, sampleLobby)]).2).isSome = true := by decide

/-- C6: a broadcast attempt sends to the humans (the slots with an address)
exactly when the `(status, turn, board)` triple differs from the cached
hash, and a second attempt on the then-unchanged lobby sends nothing — so
two consecutive attempts after one real change produce exactly one send. -/
theorem claim_c6 (lb : Lobby) :
    (lb.last_hash = some lb.state_hash → send_state lb = ([], lb)) ∧
    (lb.last_hash ≠ some lb.state_hash →
      (send_state lb).1 = lb.player_addresses.filterMap id ∧
      (send_state lb).2 = { lb with last_hash := some lb.state_hash }) ∧
    (send_state (send_state lb).2).1 = [] := by
  by_cases h : lb.last_hash = some lb.state_hash
  · have hskip : send_state lb = ([], lb) := by simp [send_state, h]
    refine ⟨fun _ => hskip, fun h' => absurd h h', ?_⟩
    rw [hskip]
    show (send_state lb).1 = []
    rw [hskip]
  · have hsend : send_state lb =
        (lb.player_addresses.filterMap id,
          { lb with last_hash := some lb.state_hash }) := by
      simp [send_state, h]
    refine ⟨fun h' => absurd h' h, fun _ => ⟨by rw [hsend], by rw [hsend]⟩, ?_⟩
    rw [hsend]
    show (send_state { lb with last_hash := some lb.state_hash }).1 = []
    have hsh : ({ lb with last_hash := some lb.state_hash } : Lobby).state_hash =
        lb.state_hash := rfl
    simp [send_state, hsh]

theorem claim_c6_witness :
    sampleLobby.last_hash ≠ some sampleLobby.state_hash ∧
    (send_state sampleLobby).1 = [3] ∧
    (send_state (send_state sampleLobby).2).1 = [] := by
  have h := claim_c6 sampleLobby
  have hne : sampleLobby.last_hash ≠ some sampleLobby.state_hash := by decide
  exact ⟨hne, by rw [(h.2.1 hne).1]; rfl, h.2.2⟩
/-- C10: with the random number generator modelled as a stream of draws in
`1..65534` that eventually takes every value in that range (true with
probability 1 of the source's `random.randrange(1, 65535)`), the allocation
loop terminates with a fresh id in `1..65534` whenever some id in the range
is not live; if every id in the range were live, no draw would ever escape
`existing` and the loop would have no terminating iteration. -/
theorem claim_c10 (draws : Nat → Nat) (existing : List Nat)
    (hrange : ∀ i, 1 ≤ draws i ∧ draws i < 65535)
    (hfair : ∀ v, 1 ≤ v → v < 65535 → ∃ i, draws i = v) :
    ((∃ v, 1 ≤ v ∧ v < 65535 ∧ v ∉ existing) →
      ∃ hex : ∃ i, draws i ∉ existing,
        1 ≤ generate_lobby_id draws existing hex ∧
        generate_lobby_id draws existing hex < 65535 ∧
        generate_lobby_id draws existing hex ∉ existing) ∧
    ((∀ v, 1 ≤ v → v < 65535 → v ∈ existing) → ¬∃ i, draws i ∉ existing) := by
  constructor
  · rintro ⟨v, hv1, hv2, hvn⟩
    obtain ⟨i, hi⟩ := hfair v hv1 hv2
    have hex : ∃ i, draws i ∉ existing := ⟨i, by rw [hi]; exact hvn⟩
    refine ⟨hex, (hrange _).1, (hrange _).2, ?_⟩
    exact Nat.find_spec hex
  · rintro hall ⟨i, hi⟩
    exact hi (hall (draws i) (hrange i).1 (hrange i).2)

theorem claim_c10_witness :
    ((∃ v, 1 ≤ v ∧ v < 65535 ∧ v ∉ ([] : List Nat)) →
      ∃ hex : ∃ i, (fun i => i % 65534 + 1) i ∉ ([] : List Nat),
        1 ≤ generate_lobby_id (fun i => i % 65534 + 1) [] hex ∧
        generate_lobby_id (fun i => i % 65534 + 1) [] hex < 65535 ∧
        generate_lobby_id (fun i => i % 65534 + 1) [] hex ∉ ([] : List Nat)) ∧
    ((∀ v, 1 ≤ v → v < 65535 → v ∈ ([] : List Nat)) →
      ¬∃ i, (fun i => i % 65534 + 1) i ∉ ([] : List Nat)) := by
  apply claim_c10 (fun i => i % 65534 + 1) []
  · intro i
    have := Nat.mod_lt i (show 0 < 65534 by decide)
    omega
  · intro v hv1 hv2
    refine ⟨v - 1, ?_⟩
    show (v - 1) % 65534 + 1 = v
    rw [Nat.mod_eq_of_lt (by omega)]
    omega

end Reversi
